import Mathlib

/-!
# Verification of the word-ladder tool (`src/main.rs`)

A shallow embedding of the Rust program in `src/main.rs` together with proofs
about it.  Words are byte strings, modelled as `List Nat`.  HashMaps and
HashSets of the source are modelled as association lists / lists; insertion is
modelled by consing, so lookup (first match) sees the most recent insertion,
matching HashMap overwrite semantics.  I/O errors are out of scope: a file is
modelled as the list of its bytes.
-/

/-- A word: the bytes of a `Vec<u8>` / `&[u8]` from the source. -/
abbrev Word := List Nat

/-- A loaded dictionary (`HashMap<Vec<u8>, HashSet<Vec<u8>>>`), as an
association list; neighbor sets are lists. -/
abbrev Dict := List (Word × List Word)

/-- `const ALPHA: &[u8] = "abcdefghijklmnopqrstuvwxyz".as_bytes()` (main.rs:41). -/
def ALPHA : List Nat := (List.range 26).map (fun i => 97 + i)

/-- Association-list lookup, modelling `HashMap::get` / `contains_key`. -/
def alookup {α : Type} : List (Word × α) → Word → Option α
  | [], _ => none
  | (k, v) :: rest, w => if k = w then some v else alookup rest w

/-- The key set of a dictionary. -/
def keys (G : Dict) : List Word := G.map Prod.fst

/-- The neighbor list the BFS sees for a word (empty for a non-key). -/
def neighborsOf (G : Dict) (w : Word) : List Word := (alookup G w).getD []

/-- Adjacency in the loaded dictionary graph. -/
def adj (G : Dict) (v w : Word) : Prop := w ∈ neighborsOf G v

instance (G : Dict) (v w : Word) : Decidable (adj G v w) :=
  inferInstanceAs (Decidable (w ∈ neighborsOf G v))

/-- `compute_neighbors` (main.rs:106-137), restricted to the neighbor words it
emits: for each position `idx` of `word` and each alphabet letter different
from `word[idx]`, the single-letter substitution is tested for membership in
`avail` and emitted if present.  The source mutates `word[idx]` in place and
restores it, so each candidate is `word` with exactly position `idx`
replaced. -/
def computeNeighbors (word : Word) (avail : List Word) : List Word :=
  (List.range word.length).flatMap (fun idx =>
    ALPHA.flatMap (fun letter =>
      if word.getD idx 0 = letter then []
      else if word.set idx letter ∈ avail then [word.set idx letter] else []))

/-- Splits a byte stream into the chunks produced by the
`reader.read_until(b'\n', &mut buf)` loops (main.rs:75-86 and 147-162): each
chunk ends with the newline that terminated it, except that a final chunk not
terminated by a newline is returned as-is. -/
def readChunks : List Nat → List (List Nat)
  | [] => []
  | b :: bs =>
    if b = 10 then [10] :: readChunks bs
    else match readChunks bs with
      | [] => [[b]]
      | c :: cs => (b :: c) :: cs

/-- The words stored by `generate_dict`'s read loop (main.rs:75-86): each
chunk with its final byte removed (`&buf[0..nread - 1]`). -/
def storedWords (bs : List Nat) : List Word :=
  (readChunks bs).map (fun c => c.dropLast)

/-- The lines fed to the dictionary parser by `find_path`'s read loop
(main.rs:147-154): each chunk with its final byte removed
(`&buf[0..nread - 1]`). -/
def dictLines (bs : List Nat) : List (List Nat) :=
  (readChunks bs).map (fun c => c.dropLast)

/-- `line.split(|&b| b == b' ')` (main.rs:155): Rust slice `split` semantics,
including the empty fragments; splitting an empty slice yields one empty
fragment. -/
def splitSp : List Nat → List (List Nat)
  | [] => [[]]
  | b :: rest =>
    if b = 32 then [] :: splitSp rest
    else match splitSp rest with
      | [] => [[b]]
      | p :: ps => (b :: p) :: ps

/-- Parsing one dictionary line (main.rs:155-158): the first fragment is the
word, the rest are its neighbors.  `none` models the
`ok_or(anyhow!(...))` error branch for a missing first fragment. -/
def parseLine (line : List Nat) : Option (Word × List Word) :=
  match splitSp line with
  | [] => none
  | w :: ns => some (w, ns)

/-- Parsing all dictionary lines in file order (main.rs:147-162). -/
def parseLines : List (List Nat) → Option (List (Word × List Word))
  | [] => some []
  | l :: ls =>
    match parseLine l, parseLines ls with
    | some e, some es => some (e :: es)
    | _, _ => none

/-- The dictionary entries `find_path` loads from a dictionary file, in file
order (main.rs:140-162). -/
def deserialize (bs : List Nat) : Option (List (Word × List Word)) :=
  parseLines (dictLines bs)

/-- The bytes `compute_neighbors` writes for one graph entry
(main.rs:111-134): the word, then a space before each neighbor, then a
newline. -/
def serializeEntry (e : Word × List Word) : List Nat :=
  e.1 ++ e.2.flatMap (fun n => 32 :: n) ++ [10]

/-- The bytes written for a whole graph, one line per entry. -/
def serializeGraph (g : List (Word × List Word)) : List Nat :=
  g.flatMap serializeEntry

/-- The deduplicated word set `generate_dict` builds
(`HashSet<Vec<u8>>`, main.rs:72-86); the model fixes first-occurrence order
for the set's (unspecified) iteration order. -/
def storedSet (bs : List Nat) : List Word := (storedWords bs).dedup

/-- The graph entries `generate_dict` produces: one entry per word of the
set, with the neighbors found by `compute_neighbors` (main.rs:99-101). -/
def genEntries (avail : List Word) : List (Word × List Word) :=
  avail.map (fun w => (w, computeNeighbors w avail))

/-- The dictionary file bytes written by `generate_dict` (main.rs:68-104).
No validation of the word list occurs anywhere in the function. -/
def generateDict (bs : List Nat) : List Nat :=
  serializeGraph (genEntries (storedSet bs))

/-- Outcome of `find_path`'s search phase (main.rs:164-221).
`wordNotFound w` is the `'{w}' is not in the dictionnary` message followed by
`return Ok(())`; `noPath` is the `no path found` message; `path p` is the
printed path, start first; `errored` covers the abnormal exits: the
`ok_or(anyhow!(...))?` early error returns and the panicking
`used[end_word]` / `previous[value]` index operations. -/
inductive FindResult
  | wordNotFound (w : Word)
  | noPath
  | path (p : List Word)
  | errored
deriving DecidableEq

/-- The inner `for neighbor in neighbors` loop of the BFS (main.rs:194-201):
each neighbor not yet marked in `used` is marked, pushed on the back of the
queue, and given `current` as predecessor. -/
def visitNeighbors (current : Word) :
    List Word → List Word → List (Word × Bool) → List (Word × Word) →
    List Word × List (Word × Bool) × List (Word × Word)
  | [], queue, used, prev => (queue, used, prev)
  | n :: ns, queue, used, prev =>
    if (alookup used n).getD false then
      visitNeighbors current ns queue used prev
    else
      visitNeighbors current ns (queue ++ [n]) ((n, true) :: used) ((n, current) :: prev)

/-- The BFS worklist loop (main.rs:187-202).  The Rust loop runs until the
queue is empty; the model adds a fuel argument to make the recursion
structural, and `findPath` passes enough fuel for the loop to always reach
its real exit (`bfs_run` below proves this).  `none` models the
`ok_or(anyhow!("value not in dict???"))?` error return. -/
def bfsAux (G : Dict) :
    Nat → List Word → List (Word × Bool) → List (Word × Word) →
    Option (List (Word × Bool) × List (Word × Word))
  | _, [], used, prev => some (used, prev)
  | 0, _ :: _, _, _ => none
  | fuel + 1, c :: queue, used, prev =>
    match alookup G c with
    | none => none
    | some ns =>
      match visitNeighbors c ns queue used prev with
      | (queue', used', prev') => bfsAux G fuel queue' used' prev'

/-- Fuel that always suffices for `bfsAux`: every word the BFS ever marks is
the start word or occurs in some neighbor list, so the number of loop
iterations is bounded by the number of distinct such words. -/
def bfsFuel (G : Dict) (s : Word) : Nat :=
  2 * ((s :: G.flatMap (fun e => e.2)).dedup).length + 1

/-- The path-reconstruction loop (main.rs:207-212): starting from the end
word, repeatedly push the current word and follow its predecessor link, until
the empty sentinel slice stored for the start word is reached.  `none` models
the panicking `previous[value]` lookup (and, at fuel 0, a predecessor cycle,
on which the Rust loop would not terminate; `findPath` passes more fuel than
there are predecessor entries, which rules this out for the states the BFS
produces). -/
def reconstructAux : Nat → List (Word × Word) → Word → Option (List Word)
  | 0, _, _ => none
  | fuel + 1, prev, value =>
    if value = [] then some []
    else
      match alookup prev value with
      | none => none
      | some v => (reconstructAux fuel prev v).map (fun r => value :: r)

/-- The search phase of `find_path` (main.rs:164-221), on an already loaded
dictionary.  Note two faithful quirks of the source: the word-not-found
message always names `start` (main.rs:170-173 prints `start_word` for both
loop iterations), and the final `used[end_word]` (main.rs:204) is a panicking
`HashMap` index when the end word was never visited.  Printing is modelled
as infallible: the `str::from_utf8(...)?` calls (main.rs:172, 216) can fail
only on dictionary bytes that are not valid UTF-8, an output-encoding
concern this byte-level model abstracts over. -/
def findPath (G : Dict) (start endw : Word) : FindResult :=
  if alookup G start = none then FindResult.wordNotFound start
  else if alookup G endw = none then FindResult.wordNotFound start
  else
    match bfsAux G (bfsFuel G start) [start] [(start, true)] [(start, [])] with
    | none => FindResult.errored
    | some (used, prev) =>
      match alookup used endw with
      | none => FindResult.errored
      | some b =>
        if b = false then FindResult.noPath
        else
          match reconstructAux (prev.length + 1) prev endw with
          | none => FindResult.errored
          | some rev => FindResult.path rev.reverse


/-! ## Association-list lemmas -/

theorem alookup_eq_none {α : Type} (l : List (Word × α)) (w : Word) :
    alookup l w = none ↔ w ∉ l.map Prod.fst := by
  induction l with
  | nil => simp [alookup]
  | cons kv rest ih =>
    obtain ⟨k, v⟩ := kv
    by_cases h : k = w
    · subst h
      simp [alookup]
    · have h' : w ≠ k := fun hw => h hw.symm
      simp [alookup, h, ih, h']

theorem alookup_isSome {α : Type} (l : List (Word × α)) (w : Word)
    (h : w ∈ l.map Prod.fst) : ∃ v, alookup l w = some v := by
  cases hv : alookup l w with
  | none => exact absurd ((alookup_eq_none l w).1 hv) (by simp [h])
  | some v => exact ⟨v, rfl⟩

theorem alookup_mem {α : Type} (l : List (Word × α)) (w : Word) (v : α)
    (h : alookup l w = some v) : (w, v) ∈ l := by
  induction l with
  | nil => simp [alookup] at h
  | cons kv rest ih =>
    obtain ⟨k, v'⟩ := kv
    by_cases hk : k = w
    · subst hk
      simp [alookup] at h
      simp [h]
    · simp [alookup, hk] at h
      simp [ih h]

theorem alookup_mem_keys {α : Type} (l : List (Word × α)) (w : Word) (v : α)
    (h : alookup l w = some v) : w ∈ l.map Prod.fst := by
  have := alookup_mem l w v h
  exact List.mem_map.2 ⟨(w, v), this, rfl⟩

theorem alookup_cons_ne {α : Type} (l : List (Word × α)) (k w : Word) (v : α)
    (h : k ≠ w) : alookup ((k, v) :: l) w = alookup l w := by
  simp [alookup, h]

/-! ## `List.getD` / `List.set` helper lemmas -/

theorem getD_mem (l : List Nat) (i : Nat) (h : i < l.length) : l.getD i 0 ∈ l := by
  induction l generalizing i with
  | nil => simp at h
  | cons x xs ih =>
    cases i with
    | zero => simp
    | succ j =>
      simp only [List.length_cons, Nat.succ_lt_succ_iff] at h
      simp only [List.getD_cons_succ]
      exact List.mem_cons_of_mem x (ih j h)

theorem getD_set_self (l : List Nat) (i : Nat) (c : Nat) (h : i < l.length) :
    (l.set i c).getD i 0 = c := by
  induction l generalizing i with
  | nil => simp at h
  | cons x xs ih =>
    cases i with
    | zero => simp
    | succ j =>
      simp only [List.length_cons, Nat.succ_lt_succ_iff] at h
      simpa using ih j h

theorem getD_set_ne (l : List Nat) (i j : Nat) (c : Nat) (h : i ≠ j) :
    (l.set i c).getD j 0 = l.getD j 0 := by
  induction l generalizing i j with
  | nil => simp
  | cons x xs ih =>
    cases i with
    | zero =>
      cases j with
      | zero => exact absurd rfl h
      | succ j' => simp
    | succ i' =>
      cases j with
      | zero => simp
      | succ j' =>
        simp only [List.set_cons_succ, List.getD_cons_succ]
        exact ih i' j' (fun hc => h (by rw [hc]))

theorem set_getD_self (l : List Nat) (i : Nat) : l.set i (l.getD i 0) = l := by
  induction l generalizing i with
  | nil => simp
  | cons x xs ih =>
    cases i with
    | zero => simp
    | succ j =>
      simp only [List.getD_cons_succ, List.set_cons_succ]
      rw [ih j]

/-! ## Characterization of `compute_neighbors` -/

theorem mem_computeNeighbors (w n : Word) (avail : List Word) :
    n ∈ computeNeighbors w avail ↔
      ∃ idx, idx < w.length ∧ ∃ c, c ∈ ALPHA ∧ w.getD idx 0 ≠ c ∧
        n = w.set idx c ∧ n ∈ avail := by
  unfold computeNeighbors
  simp only [List.mem_flatMap, List.mem_range]
  constructor
  · rintro ⟨idx, hidx, c, hc, hmem⟩
    refine ⟨idx, hidx, c, hc, ?_⟩
    split_ifs at hmem with h1 h2
    · simp at hmem
    · simp at hmem
      subst hmem
      exact ⟨h1, rfl, h2⟩
    · simp at hmem
  · rintro ⟨idx, hidx, c, hc, hne, hn, hmem⟩
    refine ⟨idx, hidx, c, hc, ?_⟩
    rw [if_neg hne, hn] at *
    rw [if_pos hmem]
    simp

/-- The number of positions where two words differ. -/
def diffCount (a b : Word) : Nat :=
  (List.zip a b).countP (fun p => p.1 != p.2)

theorem diffCount_nil_left (b : Word) : diffCount [] b = 0 := by
  simp [diffCount]

theorem diffCount_cons (x y : Nat) (xs ys : Word) :
    diffCount (x :: xs) (y :: ys) = diffCount xs ys + if x = y then 0 else 1 := by
  by_cases h : x = y <;> simp [diffCount, List.countP_cons, h]

theorem diffCount_refl (l : Word) : diffCount l l = 0 := by
  induction l with
  | nil => rfl
  | cons x xs ih => simp [diffCount_cons, ih]

theorem diffCount_set (w : Word) (idx : Nat) (c : Nat) (hidx : idx < w.length)
    (hne : w.getD idx 0 ≠ c) : diffCount w (w.set idx c) = 1 := by
  induction w generalizing idx with
  | nil => simp at hidx
  | cons x xs ih =>
    cases idx with
    | zero =>
      simp only [List.getD_cons_zero] at hne
      simp [List.set_cons_zero, diffCount_cons, diffCount_refl, hne]
    | succ j =>
      simp only [List.length_cons, Nat.succ_lt_succ_iff] at hidx
      simp only [List.getD_cons_succ] at hne
      simp [List.set_cons_succ, diffCount_cons, ih j hidx hne]

theorem diffCount_eq_zero (a b : Word) (hlen : a.length = b.length)
    (h : diffCount a b = 0) : a = b := by
  induction a generalizing b with
  | nil => cases b with
    | nil => rfl
    | cons y ys => simp at hlen
  | cons x xs ih =>
    cases b with
    | nil => simp at hlen
    | cons y ys =>
      simp only [List.length_cons, Nat.succ_inj'] at hlen
      rw [diffCount_cons] at h
      by_cases hxy : x = y
      · subst hxy
        rw [if_pos rfl] at h
        rw [ih ys hlen (by omega)]
      · rw [if_neg hxy] at h
        omega

theorem diffCount_eq_one (a b : Word) (hlen : a.length = b.length)
    (h : diffCount a b = 1) :
    ∃ idx, idx < a.length ∧ b = a.set idx (b.getD idx 0) ∧
      a.getD idx 0 ≠ b.getD idx 0 := by
  induction a generalizing b with
  | nil =>
    cases b with
    | nil => simp [diffCount] at h
    | cons y ys => simp at hlen
  | cons x xs ih =>
    cases b with
    | nil => simp at hlen
    | cons y ys =>
      simp only [List.length_cons, Nat.succ_inj'] at hlen
      rw [diffCount_cons] at h
      by_cases hxy : x = y
      · subst hxy
        rw [if_pos rfl] at h
        obtain ⟨idx, hidx, hset, hne⟩ := ih ys hlen (by omega)
        refine ⟨idx + 1, by simpa using hidx, ?_, by simpa using hne⟩
        simp only [List.getD_cons_succ, List.set_cons_succ]
        rw [← hset]
      · rw [if_neg hxy] at h
        have h0 : diffCount xs ys = 0 := by omega
        have := diffCount_eq_zero xs ys hlen h0
        subst this
        exact ⟨0, by simp, by simp, by simpa using hxy⟩

/-! ## Claims C5, C6, C7: properties of the neighbor builder -/

theorem computeNeighbors_symm_dir (avail : List Word)
    (halpha : ∀ w ∈ avail, ∀ c ∈ w, c ∈ ALPHA)
    (a b : Word) (ha : a ∈ avail)
    (h : b ∈ computeNeighbors a avail) : a ∈ computeNeighbors b avail := by
  rw [mem_computeNeighbors] at h ⊢
  obtain ⟨idx, hidx, c, hc, hne, hb, hbmem⟩ := h
  refine ⟨idx, ?_, a.getD idx 0, ?_, ?_, ?_, ha⟩
  · rw [hb, List.length_set]
    exact hidx
  · exact halpha a ha _ (getD_mem a idx hidx)
  · rw [hb, getD_set_self a idx c hidx]
    exact fun hh => hne hh.symm
  · rw [hb, List.set_set, set_getD_self]

/-- C5 (amended): for a word set all of whose characters are alphabet
letters, the neighbor relation computed by `compute_neighbors` is symmetric
on members of the set. -/
theorem computeNeighbors_symm (avail : List Word)
    (halpha : ∀ w ∈ avail, ∀ c ∈ w, c ∈ ALPHA)
    (a b : Word) (ha : a ∈ avail) (hb : b ∈ avail) :
    b ∈ computeNeighbors a avail ↔ a ∈ computeNeighbors b avail :=
  ⟨computeNeighbors_symm_dir avail halpha a b ha,
   computeNeighbors_symm_dir avail halpha b a hb⟩

/-- C5 witness: the amended symmetry theorem applied to the concrete word
set `{"a", "b"}`. -/
theorem computeNeighbors_symm_witness :
    [98] ∈ computeNeighbors [97] [[97], [98]] ↔
      [97] ∈ computeNeighbors [98] [[97], [98]] :=
  computeNeighbors_symm [[97], [98]] (by decide) [97] [98] (by decide) (by decide)

/-- C5 counterexample: in the word set `{"0", "a"}` (byte 48 is not an
alphabet letter, and the code never validates the alphabet), "a" is a
neighbor of "0" but not conversely, refuting symmetry for arbitrary word
sets. -/
theorem computeNeighbors_symm_cex :
    [97] ∈ computeNeighbors [48] [[48], [97]] ∧
      [48] ∉ computeNeighbors [97] [[48], [97]] := by decide

theorem computeNeighbors_irrefl_aux (w : Word) (avail : List Word) :
    w ∉ computeNeighbors w avail := by
  rw [mem_computeNeighbors]
  rintro ⟨idx, hidx, c, hc, hne, heq, hmem⟩
  have hg := getD_set_self w idx c hidx
  rw [← heq] at hg
  exact hne hg

/-- C6: no word ever lists itself as a neighbor, because every candidate
differs from the word at the substituted position. -/
theorem computeNeighbors_irrefl (w : Word) (avail : List Word) :
    (w ∈ computeNeighbors w avail) ↔ False :=
  iff_false_intro (computeNeighbors_irrefl_aux w avail)

/-- C7: on an alphabet-only word set, `generate_dict` emits exactly one
entry per word of the set (words with no neighbors included), the computed
neighbor list of any word `w` holds exactly the set members differing from
`w` in exactly one position, and this membership depends only on the
membership of the word set, not on its order. -/
theorem genEntries_spec (avail : List Word) (_hnd : avail.Nodup)
    (halpha : ∀ w ∈ avail, ∀ c ∈ w, c ∈ ALPHA) :
    ((genEntries avail).map Prod.fst = avail) ∧
    (∀ w n, n ∈ computeNeighbors w avail ↔
       n ∈ avail ∧ w.length = n.length ∧ diffCount w n = 1) ∧
    (∀ avail₂ : List Word, (∀ x, x ∈ avail₂ ↔ x ∈ avail) →
       ∀ w n, n ∈ computeNeighbors w avail₂ ↔ n ∈ computeNeighbors w avail) := by
  refine ⟨?_, ?_, ?_⟩
  · simp [genEntries, List.map_map]
    exact List.map_id avail
  · intro w n
    constructor
    · intro h
      rw [mem_computeNeighbors] at h
      obtain ⟨idx, hidx, c, hc, hne, hn, hmem⟩ := h
      refine ⟨hmem, ?_, ?_⟩
      · rw [hn, List.length_set]
      · rw [hn]
        exact diffCount_set w idx c hidx hne
    · rintro ⟨hn, hlen, hdc⟩
      obtain ⟨idx, hidx, hset, hne⟩ := diffCount_eq_one w n hlen hdc
      rw [mem_computeNeighbors]
      refine ⟨idx, hidx, n.getD idx 0, ?_, hne, hset, hn⟩
      exact halpha n hn _ (getD_mem n idx (hlen ▸ hidx))
  · intro avail₂ hmem w n
    rw [mem_computeNeighbors, mem_computeNeighbors]
    constructor
    · rintro ⟨idx, hidx, c, hc, hne, hn, hm⟩
      exact ⟨idx, hidx, c, hc, hne, hn, (hmem n).1 hm⟩
    · rintro ⟨idx, hidx, c, hc, hne, hn, hm⟩
      exact ⟨idx, hidx, c, hc, hne, hn, (hmem n).2 hm⟩

/-- C7 witness: the builder specification applied to the concrete word set
`{"a", "b"}`. -/
theorem genEntries_spec_witness :
    ((genEntries [[97], [98]]).map Prod.fst = [[97], [98]]) ∧
    (∀ w n, n ∈ computeNeighbors w [[97], [98]] ↔
       n ∈ [[97], [98]] ∧ w.length = n.length ∧ diffCount w n = 1) ∧
    (∀ avail₂ : List Word, (∀ x, x ∈ avail₂ ↔ x ∈ [[97], [98]]) →
       ∀ w n, n ∈ computeNeighbors w avail₂ ↔ n ∈ computeNeighbors w [[97], [98]]) :=
  genEntries_spec [[97], [98]] (by decide) (by decide)

/-! ## Codec lemmas: chunking, splitting, round-trip -/

theorem readChunks_ne_nil (b : Nat) (bs : List Nat) : readChunks (b :: bs) ≠ [] := by
  rw [readChunks]
  split
  · simp
  · split <;> simp

theorem readChunks_append (xs rest : List Nat) (h10 : 10 ∉ xs) :
    readChunks (xs ++ 10 :: rest) = (xs ++ [10]) :: readChunks rest := by
  induction xs with
  | nil => simp [readChunks]
  | cons x xs ih =>
    have hx : x ≠ 10 := fun h => h10 (h ▸ List.mem_cons_self x xs)
    have h10' : 10 ∉ xs := fun h => h10 (List.mem_cons_of_mem x h)
    rw [List.cons_append, readChunks, if_neg hx, ih h10']
    rfl

theorem readChunks_single (w : List Nat) (h10 : 10 ∉ w) (hne : w ≠ []) :
    readChunks w = [w] := by
  induction w with
  | nil => exact absurd rfl hne
  | cons x xs ih =>
    have hx : x ≠ 10 := fun h => h10 (h ▸ List.mem_cons_self x xs)
    have h10' : 10 ∉ xs := fun h => h10 (List.mem_cons_of_mem x h)
    cases xs with
    | nil => rw [readChunks, if_neg hx]; rfl
    | cons y ys =>
      rw [readChunks, if_neg hx, ih h10' (by simp)]

theorem splitSp_ne_nil (l : List Nat) : splitSp l ≠ [] := by
  cases l with
  | nil => simp [splitSp]
  | cons b rest =>
    rw [splitSp]
    split
    · simp
    · split <;> simp

theorem splitSp_append (w bs : List Nat) (h : 32 ∉ w) :
    splitSp (w ++ bs) = (w ++ (splitSp bs).headI) :: (splitSp bs).tail := by
  induction w with
  | nil =>
    obtain ⟨p, ps, hps⟩ : ∃ p ps, splitSp bs = p :: ps := by
      cases hsp : splitSp bs with
      | nil => exact absurd hsp (splitSp_ne_nil bs)
      | cons p ps => exact ⟨p, ps, rfl⟩
    simp [hps]
  | cons x xs ih =>
    have hx : x ≠ 32 := fun hh => h (hh ▸ List.mem_cons_self x xs)
    have h' : 32 ∉ xs := fun hh => h (List.mem_cons_of_mem x hh)
    rw [List.cons_append, splitSp, if_neg hx, ih h']
    rfl

theorem splitSp_flat (ns : List Word) (h : ∀ n ∈ ns, 32 ∉ n) :
    splitSp (ns.flatMap (fun n => 32 :: n)) = [] :: ns := by
  induction ns with
  | nil => rfl
  | cons n ns ih =>
    have hn : 32 ∉ n := h n (List.mem_cons_self n ns)
    have h' : ∀ m ∈ ns, 32 ∉ m := fun m hm => h m (List.mem_cons_of_mem n hm)
    rw [List.flatMap_cons, List.cons_append, splitSp, if_pos rfl,
      splitSp_append n _ hn, ih h']
    simp

theorem parseLine_serial (w : Word) (ns : List Word) (hw : 32 ∉ w)
    (hns : ∀ n ∈ ns, 32 ∉ n) :
    parseLine (w ++ ns.flatMap (fun n => 32 :: n)) = some (w, ns) := by
  rw [parseLine, splitSp_append w _ hw, splitSp_flat ns hns]
  simp

theorem not_mem_serial_tail (ns : List Word) (h : ∀ n ∈ ns, 10 ∉ n) :
    10 ∉ ns.flatMap (fun n => 32 :: n) := by
  intro hmem
  rw [List.mem_flatMap] at hmem
  obtain ⟨n, hn, hm⟩ := hmem
  rcases List.mem_cons.1 hm with h32 | hin
  · exact absurd h32 (by norm_num)
  · exact h n hn hin

/-- C8: serializing any neighbor graph whose words are non-empty and free of
spaces and newlines, then deserializing it with `find_path`'s loader, yields
back exactly the same entries: the same word set and the same neighbor set
for every word. -/
theorem serialize_roundtrip (g : List (Word × List Word))
    (hw : ∀ e ∈ g, e.1 ≠ [] ∧ 32 ∉ e.1 ∧ 10 ∉ e.1)
    (hn : ∀ e ∈ g, ∀ n ∈ e.2, n ≠ [] ∧ 32 ∉ n ∧ 10 ∉ n) :
    deserialize (serializeGraph g) = some g := by
  induction g with
  | nil => rfl
  | cons e g ih =>
    have hwe := hw e (List.mem_cons_self e g)
    have hne := hn e (List.mem_cons_self e g)
    have hw' : ∀ x ∈ g, x.1 ≠ [] ∧ 32 ∉ x.1 ∧ 10 ∉ x.1 :=
      fun x hx => hw x (List.mem_cons_of_mem e hx)
    have hn' : ∀ x ∈ g, ∀ n ∈ x.2, n ≠ [] ∧ 32 ∉ n ∧ 10 ∉ n :=
      fun x hx => hn x (List.mem_cons_of_mem e hx)
    have hline10 : 10 ∉ e.1 ++ e.2.flatMap (fun n => 32 :: n) := by
      rw [List.mem_append]
      push_neg
      exact ⟨hwe.2.2, not_mem_serial_tail e.2 (fun n hn' => (hne n hn').2.2)⟩
    have hsg : serializeGraph (e :: g) =
        (e.1 ++ e.2.flatMap (fun n => 32 :: n)) ++ 10 :: serializeGraph g := by
      simp [serializeGraph, serializeEntry]
    rw [deserialize, dictLines, hsg, readChunks_append _ _ hline10, List.map_cons,
      parseLines]
    have hdrop : ((e.1 ++ e.2.flatMap (fun n => 32 :: n)) ++ [10]).dropLast =
        e.1 ++ e.2.flatMap (fun n => 32 :: n) := by simp
    rw [hdrop, parseLine_serial e.1 e.2 hwe.2.1 (fun n hn' => (hne n hn').2.1)]
    have ihx : parseLines ((readChunks (serializeGraph g)).map (fun c => c.dropLast)) =
        some g := by
      have := ih hw' hn'
      rwa [deserialize, dictLines] at this
    rw [ihx]

/-- C8 witness: the round-trip theorem applied to the concrete graph
`{"ab" ↦ {"bb"}, "bb" ↦ {"ab"}}`. -/
theorem serialize_roundtrip_witness :
    deserialize (serializeGraph [([97, 98], [[98, 98]]), ([98, 98], [[97, 98]])]) =
      some [([97, 98], [[98, 98]]), ([98, 98], [[97, 98]])] :=
  serialize_roundtrip _ (by decide) (by decide)

/-- C9: the dictionary loader accepts an empty line, silently inserting an
entry mapping the empty word to an empty neighbor set, and its
line-parse error branch (`ok_or(anyhow!("empty line???"))`) can never fire:
splitting any line, the empty one included, always yields a first fragment. -/
theorem deserialize_empty_line :
    deserialize [10] = some [([], [])] ∧ ∀ line, (parseLine line).isSome := by
  refine ⟨by decide, fun line => ?_⟩
  cases hsp : splitSp line with
  | nil => exact absurd hsp (splitSp_ne_nil line)
  | cons p ps => simp [parseLine, hsp]

/-! ## Claims C10 and C4: the read loops and the absence of validation -/

/-- A word list file in which every line is newline-terminated. -/
def joinLines (ls : List (List Nat)) : List Nat :=
  ls.flatMap (fun l => l ++ [10])

theorem readChunks_joinLines (ls : List (List Nat)) (hls : ∀ l ∈ ls, 10 ∉ l) :
    readChunks (joinLines ls) = ls.map (fun l => l ++ [10]) := by
  induction ls with
  | nil => rfl
  | cons l ls ih =>
    have hl : 10 ∉ l := hls l (List.mem_cons_self l ls)
    have hls' : ∀ x ∈ ls, 10 ∉ x := fun x hx => hls x (List.mem_cons_of_mem l hx)
    have : joinLines (l :: ls) = l ++ 10 :: joinLines ls := by
      simp [joinLines]
    rw [this, readChunks_append l _ hl, ih hls', List.map_cons]

theorem readChunks_joinLines_tail (ls : List (List Nat)) (hls : ∀ l ∈ ls, 10 ∉ l)
    (w : List Nat) (hw : 10 ∉ w) (hwne : w ≠ []) :
    readChunks (joinLines ls ++ w) = ls.map (fun l => l ++ [10]) ++ [w] := by
  induction ls with
  | nil =>
    simp only [joinLines, List.flatMap_nil, List.nil_append, List.map_nil]
    exact readChunks_single w hw hwne
  | cons l ls ih =>
    have hl : 10 ∉ l := hls l (List.mem_cons_self l ls)
    have hls' : ∀ x ∈ ls, 10 ∉ x := fun x hx => hls x (List.mem_cons_of_mem l hx)
    have : joinLines (l :: ls) ++ w = l ++ 10 :: (joinLines ls ++ w) := by
      simp [joinLines]
    rw [this, readChunks_append l _ hl, ih hls', List.map_cons]
    rfl

/-- C10: both read loops store each chunk with its final byte removed.  For a
fully newline-terminated input every stored word/line is the exact line
content, but when the file's final line lacks its newline, the last character
of that line is silently dropped — by `generate_dict`'s word reader
(`storedWords`) and by `find_path`'s dictionary-line reader (`dictLines`)
alike. -/
theorem readers_truncate_final_line (ls : List (List Nat)) (hls : ∀ l ∈ ls, 10 ∉ l)
    (w : List Nat) (hw : 10 ∉ w) (hwne : w ≠ []) :
    (storedWords (joinLines ls) = ls ∧ dictLines (joinLines ls) = ls) ∧
    (storedWords (joinLines ls ++ w) = ls ++ [w.dropLast] ∧
     dictLines (joinLines ls ++ w) = ls ++ [w.dropLast]) := by
  have hterm : (ls.map (fun l => l ++ [10])).map (fun c => c.dropLast) = ls := by
    rw [List.map_map]
    have : ((fun c : List Nat => c.dropLast) ∘ fun l : List Nat => l ++ [10]) =
        fun l : List Nat => l := by
      funext l
      simp
    rw [this]
    exact List.map_id ls
  constructor
  · constructor
    · rw [storedWords, readChunks_joinLines ls hls, hterm]
    · rw [dictLines, readChunks_joinLines ls hls, hterm]
  · constructor
    · rw [storedWords, readChunks_joinLines_tail ls hls w hw hwne, List.map_append,
        hterm]
      rfl
    · rw [dictLines, readChunks_joinLines_tail ls hls w hw hwne, List.map_append,
        hterm]
      rfl

/-- C10 witness: the truncation theorem on the concrete file
`"ab\ncd"` (final line unterminated): the words stored are `ab` and `c` —
the `d` is lost — while the fully terminated file `"ab\n"` keeps `ab`
intact. -/
theorem readers_truncate_final_line_witness :
    (storedWords (joinLines [[97, 98]]) = [[97, 98]] ∧
     dictLines (joinLines [[97, 98]]) = [[97, 98]]) ∧
    (storedWords (joinLines [[97, 98]] ++ [99, 100]) = [[97, 98]] ++ [[99]] ∧
     dictLines (joinLines [[97, 98]] ++ [99, 100]) = [[97, 98]] ++ [[99]]) :=
  readers_truncate_final_line [[97, 98]] (by decide) [99, 100] (by decide) (by decide)

theorem readChunks_no_newline_dropLast (bs : List Nat) :
    ∀ c ∈ readChunks bs, 10 ∉ c.dropLast := by
  induction bs with
  | nil => simp [readChunks]
  | cons b bs ih =>
    intro c hc
    rw [readChunks] at hc
    by_cases hb : b = 10
    · rw [if_pos hb] at hc
      rcases List.mem_cons.1 hc with hc1 | hc2
      · subst hc1
        simp
      · exact ih c hc2
    · rw [if_neg hb] at hc
      cases hrc : readChunks bs with
      | nil =>
        rw [hrc] at hc
        simp only [List.mem_singleton] at hc
        subst hc
        simp
      | cons c0 cs =>
        rw [hrc] at hc
        rcases List.mem_cons.1 hc with hc1 | hc2
        · subst hc1
          cases c0 with
          | nil => simp
          | cons y ys =>
            intro hmem
            rw [List.dropLast_cons₂] at hmem
            rcases List.mem_cons.1 hmem with h1 | h2
            · exact hb h1.symm
            · exact ih (y :: ys) (hrc ▸ List.mem_cons_self _ _) h2
        · exact ih c (hrc ▸ List.mem_cons_of_mem c0 hc2)

theorem storedSet_no_newline (bs : List Nat) : ∀ w ∈ storedSet bs, 10 ∉ w := by
  intro w hw
  rw [storedSet, List.mem_dedup, storedWords, List.mem_map] at hw
  obtain ⟨c, hc, rfl⟩ := hw
  exact readChunks_no_newline_dropLast bs c hc

/-- C4 (amended): `generate_dict` performs no validation at all.  For every
input byte sequence — empty, inconsistent in word length, or containing
non-alphabet characters — it succeeds and writes exactly one dictionary line
per distinct stored word (the count of newline bytes in the output equals
the size of the stored word set). -/
theorem generateDict_no_validation (bs : List Nat) :
    (generateDict bs).count 10 = (storedSet bs).length := by
  have hwords : ∀ w ∈ storedSet bs, 10 ∉ w := storedSet_no_newline bs
  rw [generateDict]
  have : ∀ avail : List Word, (∀ w ∈ avail, 10 ∉ w) →
      (serializeGraph (genEntries avail)).count 10 = avail.length := by
    intro avail havail
    have hentry : ∀ e ∈ genEntries avail, (serializeEntry e).count 10 = 1 := by
      intro e he
      rw [genEntries, List.mem_map] at he
      obtain ⟨w, hwmem, rfl⟩ := he
      have h1 : 10 ∉ w := havail w hwmem
      have h2 : 10 ∉ (computeNeighbors w avail).flatMap (fun n => 32 :: n) := by
        apply not_mem_serial_tail
        intro n hn
        obtain ⟨idx, hidx, c, hc, hne, hset, this⟩ := (mem_computeNeighbors w n avail).1 hn
        exact havail n this
      rw [serializeEntry]
      rw [List.count_append, List.count_append]
      rw [List.count_eq_zero.2 h1, List.count_eq_zero.2 h2]
      rfl
    have hlen : (genEntries avail).length = avail.length := by
      rw [genEntries, List.length_map]
    rw [← hlen]
    generalize genEntries avail = es at hentry ⊢
    induction es with
    | nil => rfl
    | cons e es ihe =>
      rw [serializeGraph, List.flatMap_cons, List.count_append,
        hentry e (List.mem_cons_self e es)]
      have := ihe (fun x hx => hentry x (List.mem_cons_of_mem e hx))
      rw [serializeGraph] at this
      rw [this, List.length_cons]
      omega
  exact this (storedSet bs) hwords

/-- C4 counterexample: the word list `"a\nbb\n"` mixes word lengths 1 and 2,
yet `generate_dict` succeeds and happily writes a dictionary (here equal to
its input, both words having no neighbors) instead of failing. -/
theorem generateDict_accepts_inconsistent :
    generateDict [97, 10, 98, 98, 10] = [97, 10, 98, 98, 10] := by decide

/-! ## Distance layers of the dictionary graph (proof infrastructure for the
BFS claims) -/

/-- All words reachable from `s` within `n` hops (with duplicates). -/
def ball (G : Dict) (s : Word) : Nat → List Word
  | 0 => [s]
  | n + 1 => ball G s n ++ (ball G s n).flatMap (fun w => neighborsOf G w)

/-- `w` is reachable from `s` in the dictionary graph. -/
def Reach (G : Dict) (s w : Word) : Prop := ∃ n, w ∈ ball G s n

/-- `w` is at hop distance exactly `k` from `s`. -/
def IsDist (G : Dict) (s w : Word) (k : Nat) : Prop :=
  w ∈ ball G s k ∧ ∀ m, w ∈ ball G s m → k ≤ m

theorem ball_mono (G : Dict) (s : Word) (m n : Nat) (h : m ≤ n) :
    ∀ w ∈ ball G s m, w ∈ ball G s n := by
  induction n with
  | zero =>
    intro w hw
    have hm : m = 0 := Nat.le_zero.1 h
    subst hm
    exact hw
  | succ n ih =>
    intro w hw
    rcases Nat.eq_or_lt_of_le h with heq | hlt
    · subst heq
      exact hw
    · have := ih (Nat.lt_succ_iff.1 hlt) w hw
      rw [ball]
      exact List.mem_append_left _ this

theorem mem_ball_succ_of_adj (G : Dict) (s v w : Word) (n : Nat)
    (hv : v ∈ ball G s n) (hadj : adj G v w) : w ∈ ball G s (n + 1) := by
  rw [ball]
  apply List.mem_append_right
  rw [List.mem_flatMap]
  exact ⟨v, hv, hadj⟩

theorem reach_isDist (G : Dict) (s w : Word) (h : Reach G s w) :
    ∃ k, IsDist G s w k := by
  have h' : ∃ n, w ∈ ball G s n := h
  exact ⟨Nat.find h', Nat.find_spec h', fun m hm => Nat.find_min' h' hm⟩

theorem isDist_unique (G : Dict) (s w : Word) (k₁ k₂ : Nat)
    (h1 : IsDist G s w k₁) (h2 : IsDist G s w k₂) : k₁ = k₂ :=
  Nat.le_antisymm (h1.2 _ h2.1) (h2.2 _ h1.1)

theorem isDist_start (G : Dict) (s : Word) : IsDist G s s 0 :=
  ⟨by rw [ball]; exact List.mem_singleton_self s, fun m _ => Nat.zero_le m⟩

theorem isDist_zero_eq (G : Dict) (s w : Word) (h : IsDist G s w 0) : w = s := by
  have h1 := h.1
  rw [ball] at h1
  simpa using h1

theorem exists_pred_of_isDist_succ (G : Dict) (s w : Word) (k : Nat)
    (h : IsDist G s w (k + 1)) : ∃ v, IsDist G s v k ∧ adj G v w := by
  have hw1 : w ∈ ball G s (k + 1) := h.1
  have hwk : w ∉ ball G s k := fun hmem => by
    have := h.2 k hmem
    omega
  rw [ball] at hw1
  rcases List.mem_append.1 hw1 with h1 | h2
  · exact absurd h1 hwk
  · rw [List.mem_flatMap] at h2
    obtain ⟨v, hv, hadj⟩ := h2
    obtain ⟨j, hj⟩ := reach_isDist G s v ⟨k, hv⟩
    have hjk : j ≤ k := hj.2 k hv
    rcases Nat.lt_or_ge j k with hlt | hge
    · exfalso
      have hwj : w ∈ ball G s (j + 1) := mem_ball_succ_of_adj G s v w j hj.1 hadj
      have := h.2 (j + 1) hwj
      omega
    · have hjeq : j = k := Nat.le_antisymm hjk hge
      subst hjeq
      exact ⟨v, hj, hadj⟩

/-- The path printed by `find_path`, as the claim describes it: an ordered
word sequence starting at `s`, ending at `e`, every consecutive pair being a
dictionary edge (one hop per edge). -/
def ValidPath (G : Dict) (s e : Word) (p : List Word) : Prop :=
  p.head? = some s ∧ p.getLast? = some e ∧ List.Chain' (fun a b => adj G a b) p

theorem chain_ball (G : Dict) (s : Word) (rest : List Word) :
    ∀ (a w : Word) (n : Nat), a ∈ ball G s n →
      List.Chain' (fun x y => adj G x y) (a :: rest) →
      (a :: rest).getLast? = some w → w ∈ ball G s (n + rest.length) := by
  induction rest with
  | nil =>
    intro a w n ha _ hlast
    simp only [List.getLast?_singleton, Option.some.injEq] at hlast
    subst hlast
    simpa using ha
  | cons b rest ih =>
    intro a w n ha hchain hlast
    rw [List.chain'_cons] at hchain
    have hb : b ∈ ball G s (n + 1) := mem_ball_succ_of_adj G s a b n ha hchain.1
    have hlast' : (b :: rest).getLast? = some w := by
      rwa [List.getLast?_cons_cons] at hlast
    have hw := ih b w (n + 1) hb hchain.2 hlast'
    have harith : n + (b :: rest).length = n + 1 + rest.length := by
      simp [List.length_cons]
      omega
    rw [harith]
    exact hw

theorem validPath_ball (G : Dict) (s e : Word) (p : List Word)
    (h : ValidPath G s e p) : e ∈ ball G s (p.length - 1) := by
  obtain ⟨hhead, hlast, hchain⟩ := h
  cases p with
  | nil => simp at hhead
  | cons a rest =>
    simp only [List.head?_cons, Option.some.injEq] at hhead
    have hs : a ∈ ball G s 0 := by
      rw [ball, hhead]
      exact List.mem_singleton_self s
    have := chain_ball G s rest a e 0 hs hchain hlast
    simpa using this

theorem validPath_reach (G : Dict) (s e : Word) (p : List Word)
    (h : ValidPath G s e p) : Reach G s e :=
  ⟨p.length - 1, validPath_ball G s e p h⟩

theorem validPath_ne_nil (G : Dict) (s e : Word) (p : List Word)
    (h : ValidPath G s e p) : p ≠ [] := by
  intro hp
  subst hp
  simp [ValidPath] at h

/-! ## The BFS invariant -/

/-- The key list of the `used` map. -/
def ukeys (used : List (Word × Bool)) : List Word := used.map Prod.fst

/-- Every word the BFS can ever mark: the start word together with every
word occurring in some neighbor list of the dictionary. -/
def univw (G : Dict) (s : Word) : List Word := s :: G.flatMap (fun e => e.2)

theorem bfsFuel_eq (G : Dict) (s : Word) :
    bfsFuel G s = 2 * (univw G s).dedup.length + 1 := rfl

theorem adj_iff (G : Dict) (v w : Word) : adj G v w ↔ w ∈ neighborsOf G v :=
  Iff.rfl

theorem ukeys_cons (n : Word) (b : Bool) (used : List (Word × Bool)) :
    ukeys ((n, b) :: used) = n :: ukeys used := rfl

theorem marked_mem (used : List (Word × Bool)) (n : Word)
    (h : (alookup used n).getD false = true) : n ∈ ukeys used := by
  cases hl : alookup used n with
  | none =>
    rw [hl] at h
    simp at h
  | some b => exact alookup_mem_keys used n b hl

theorem unmarked_not_mem (used : List (Word × Bool)) (n : Word)
    (htrue : ∀ pr ∈ used, pr.2 = true)
    (h : ¬(alookup used n).getD false = true) : n ∉ ukeys used := by
  intro hmem
  obtain ⟨b, hb⟩ := alookup_isSome used n hmem
  have hbt : b = true := htrue (n, b) (alookup_mem used n b hb)
  rw [hb, hbt] at h
  simp at h

theorem adj_mem_univ (G : Dict) (s c n : Word) (h : adj G c n) : n ∈ univw G s := by
  rw [adj_iff, neighborsOf] at h
  cases hl : alookup G c with
  | none =>
    rw [hl] at h
    simp at h
  | some v =>
    rw [hl] at h
    simp only [Option.getD_some] at h
    have hcv := alookup_mem G c v hl
    rw [univw]
    apply List.mem_cons_of_mem
    rw [List.mem_flatMap]
    exact ⟨(c, v), hcv, h⟩

theorem adj_mem_keys (G : Dict) (c n : Word)
    (hclosure : ∀ e ∈ G, ∀ m ∈ e.2, m ∈ keys G) (h : adj G c n) : n ∈ keys G := by
  rw [adj_iff, neighborsOf] at h
  cases hl : alookup G c with
  | none =>
    rw [hl] at h
    simp at h
  | some v =>
    rw [hl] at h
    simp only [Option.getD_some] at h
    exact hclosure (c, v) (alookup_mem G c v hl) n h

theorem nodup_subset_dedup_length (l m : List Word) (hnd : l.Nodup)
    (hsub : ∀ x ∈ l, x ∈ m) : l.length ≤ m.dedup.length := by
  have hsub' : l ⊆ m.dedup := fun x hx => List.mem_dedup.2 (hsub x hx)
  exact (hnd.subperm hsub').length_le

/-- The BFS loop invariant.  `d` is the current frontier level; `A` and `B`
split the queue into its level-`d` part followed by its level-`d+1` part;
`exc` is the word currently being expanded, whose closedness obligation is
deferred while its neighbor loop runs (`[c]` during `visitNeighbors`, `[]`
between loop iterations). -/
structure BfsInv (G : Dict) (S : Word) (d : Nat) (A B exc : List Word)
    (queue : List Word) (used : List (Word × Bool))
    (prev : List (Word × Word)) : Prop where
  happ : queue = A ++ B
  hA : ∀ w ∈ A, IsDist G S w d
  hB : ∀ w ∈ B, IsDist G S w (d + 1)
  htrue : ∀ pr ∈ used, pr.2 = true
  hpk : prev.map Prod.fst = ukeys used
  hS : S ∈ ukeys used
  hprevS : alookup prev S = some []
  hq : ∀ w ∈ queue, w ∈ ukeys used
  hnd : (ukeys used).Nodup
  huniv : ∀ w ∈ ukeys used, w ∈ univw G S
  hkeys : ∀ w ∈ ukeys used, w ∈ keys G
  hreach : ∀ w ∈ ukeys used, Reach G S w
  hprev : ∀ w ∈ ukeys used, w ≠ S → ∃ v k, alookup prev w = some v ∧
    v ∈ ukeys used ∧ adj G v w ∧ IsDist G S v k ∧ IsDist G S w (k + 1)
  hcompl : ∀ w n, IsDist G S w n → n ≤ d → w ∈ ukeys used
  hclosed : ∀ w ∈ ukeys used, w ∉ exc ++ queue → ∀ n, adj G w n → n ∈ ukeys used

/-- What holds of the BFS state once the queue is exhausted. -/
structure BfsFinal (G : Dict) (S : Word) (used : List (Word × Bool))
    (prev : List (Word × Word)) : Prop where
  ftrue : ∀ pr ∈ used, pr.2 = true
  fS : S ∈ ukeys used
  fpk : prev.map Prod.fst = ukeys used
  fprevS : alookup prev S = some []
  fnd : (ukeys used).Nodup
  fkeys : ∀ w ∈ ukeys used, w ∈ keys G
  fprev : ∀ w ∈ ukeys used, w ≠ S → ∃ v k, alookup prev w = some v ∧
    v ∈ ukeys used ∧ adj G v w ∧ IsDist G S v k ∧ IsDist G S w (k + 1)
  fclosed : ∀ w ∈ ukeys used, ∀ n, adj G w n → n ∈ ukeys used

theorem inv_final (G : Dict) (S : Word) (d : Nat) (A B : List Word)
    (used : List (Word × Bool)) (prev : List (Word × Word))
    (h : BfsInv G S d A B [] [] used prev) : BfsFinal G S used prev :=
  { ftrue := h.htrue
    fS := h.hS
    fpk := h.hpk
    fprevS := h.hprevS
    fnd := h.hnd
    fkeys := h.hkeys
    fprev := h.hprev
    fclosed := fun w hw n hadj => h.hclosed w hw (by simp) n hadj }

theorem levelUp (G : Dict) (S : Word) (d : Nat) (B queue : List Word)
    (used : List (Word × Bool)) (prev : List (Word × Word))
    (h : BfsInv G S d [] B [] queue used prev) :
    BfsInv G S (d + 1) B [] [] queue used prev :=
  { happ := by
      rw [h.happ]
      simp
    hA := h.hB
    hB := by
      intro w hw
      simp at hw
    htrue := h.htrue
    hpk := h.hpk
    hS := h.hS
    hprevS := h.hprevS
    hq := h.hq
    hnd := h.hnd
    huniv := h.huniv
    hkeys := h.hkeys
    hreach := h.hreach
    hprev := h.hprev
    hcompl := by
      intro w n hdist hn
      rcases Nat.lt_or_ge n (d + 1) with hlt | hge
      · exact h.hcompl w n hdist (by omega)
      · have hn1 : n = d + 1 := by omega
        subst hn1
        obtain ⟨v, hv, hadj⟩ := exists_pred_of_isDist_succ G S w d hdist
        have hvuk : v ∈ ukeys used := h.hcompl v d hv (le_refl d)
        have hvq : v ∉ queue := by
          intro hvq
          have hvB : v ∈ B := by
            have := h.happ
            rw [this] at hvq
            simpa using hvq
          have hvd1 := h.hB v hvB
          have := isDist_unique G S v d (d + 1) hv hvd1
          omega
        exact h.hclosed v hvuk (by simpa using hvq) w hadj
    hclosed := h.hclosed }

theorem visit_step (G : Dict) (S : Word)
    (hclosure : ∀ e ∈ G, ∀ m ∈ e.2, m ∈ keys G)
    (c : Word) (d : Nat) (hcd : IsDist G S c d) :
    ∀ (ns queue : List Word) (used : List (Word × Bool))
      (prev : List (Word × Word)) (A B : List Word),
      (∀ n ∈ ns, adj G c n) →
      c ∈ ukeys used →
      BfsInv G S d A B [c] queue used prev →
      ∀ q' u' p', visitNeighbors c ns queue used prev = (q', u', p') →
      ∃ B' k, BfsInv G S d A B' [c] q' u' p' ∧
        (∀ n ∈ ns, n ∈ ukeys u') ∧
        (∀ w ∈ ukeys used, w ∈ ukeys u') ∧
        q'.length = queue.length + k ∧
        (ukeys u').length = (ukeys used).length + k := by
  intro ns
  induction ns with
  | nil =>
    intro queue used prev A B hns hcuk hInv q' u' p' heq
    rw [visitNeighbors] at heq
    simp only [Prod.mk.injEq] at heq
    obtain ⟨rfl, rfl, rfl⟩ := heq
    refine ⟨B, 0, hInv, ?_, fun w hw => hw, by omega, by omega⟩
    intro n hn
    simp at hn
  | cons n ns ih =>
    intro queue used prev A B hns hcuk hInv q' u' p' heq
    rw [visitNeighbors] at heq
    by_cases hmark : (alookup used n).getD false = true
    · rw [if_pos hmark] at heq
      have hnuk : n ∈ ukeys used := marked_mem used n hmark
      obtain ⟨B', k, h1, h2, h3, h4, h5⟩ :=
        ih queue used prev A B (fun m hm => hns m (List.mem_cons_of_mem n hm))
          hcuk hInv q' u' p' heq
      refine ⟨B', k, h1, ?_, h3, h4, h5⟩
      intro m hm
      rcases List.mem_cons.1 hm with hmn | hm'
      · subst hmn
        exact h3 m hnuk
      · exact h2 m hm'
    · rw [if_neg hmark] at heq
      have hnuk : n ∉ ukeys used := unmarked_not_mem used n hInv.htrue hmark
      have hadj : adj G c n := hns n (List.mem_cons_self n ns)
      have hdn : IsDist G S n (d + 1) := by
        constructor
        · exact mem_ball_succ_of_adj G S c n d hcd.1 hadj
        · intro m hm
          by_contra hcon
          push_neg at hcon
          obtain ⟨j, hj⟩ := reach_isDist G S n ⟨m, hm⟩
          have hjm : j ≤ m := hj.2 m hm
          exact hnuk (hInv.hcompl n j hj (by omega))
      have hnS : n ≠ S := fun hh => hnuk (hh ▸ hInv.hS)
      have hInvExt : BfsInv G S d A (B ++ [n]) [c] (queue ++ [n])
          ((n, true) :: used) ((n, c) :: prev) :=
        { happ := by rw [hInv.happ, List.append_assoc]
          hA := hInv.hA
          hB := by
            intro w hw
            rcases List.mem_append.1 hw with h | h
            · exact hInv.hB w h
            · simp only [List.mem_singleton] at h
              subst h
              exact hdn
          htrue := by
            intro pr hpr
            rcases List.mem_cons.1 hpr with hpr1 | hpr2
            · subst hpr1
              rfl
            · exact hInv.htrue pr hpr2
          hpk := by
            show n :: prev.map Prod.fst = n :: ukeys used
            rw [hInv.hpk]
          hS := List.mem_cons_of_mem n hInv.hS
          hprevS := by
            rw [alookup_cons_ne prev n S c hnS]
            exact hInv.hprevS
          hq := by
            intro w hw
            rcases List.mem_append.1 hw with h | h
            · exact List.mem_cons_of_mem n (hInv.hq w h)
            · simp only [List.mem_singleton] at h
              rw [h, ukeys_cons]
              exact List.mem_cons_self n (ukeys used)
          hnd := by
            rw [ukeys_cons]
            exact List.nodup_cons.2 ⟨hnuk, hInv.hnd⟩
          huniv := by
            intro w hw
            rcases List.mem_cons.1 hw with hw1 | hw2
            · subst hw1
              exact adj_mem_univ G S c w hadj
            · exact hInv.huniv w hw2
          hkeys := by
            intro w hw
            rcases List.mem_cons.1 hw with hw1 | hw2
            · subst hw1
              exact adj_mem_keys G c w hclosure hadj
            · exact hInv.hkeys w hw2
          hreach := by
            intro w hw
            rcases List.mem_cons.1 hw with hw1 | hw2
            · subst hw1
              exact ⟨d + 1, hdn.1⟩
            · exact hInv.hreach w hw2
          hprev := by
            intro w hw hwS
            rcases List.mem_cons.1 hw with hw1 | hw2
            · subst hw1
              refine ⟨c, d, ?_, List.mem_cons_of_mem w hcuk, hadj, hcd, hdn⟩
              simp [alookup]
            · have hwn : n ≠ w := fun hh => hnuk (hh ▸ hw2)
              obtain ⟨v, k0, ha, hv, hadj0, hd1, hd2⟩ := hInv.hprev w hw2 hwS
              exact ⟨v, k0, by rw [alookup_cons_ne prev n w c hwn]; exact ha,
                List.mem_cons_of_mem n hv, hadj0, hd1, hd2⟩
          hcompl := fun w m hm hmd => List.mem_cons_of_mem n (hInv.hcompl w m hm hmd)
          hclosed := by
            intro w hw hwq m hadjm
            have hwn : w ≠ n := by
              intro hh
              apply hwq
              rw [hh]
              exact List.mem_append_right _
                (List.mem_append_right _ (List.mem_singleton_self n))
            rcases List.mem_cons.1 hw with hw1 | hw2
            · exact absurd hw1 hwn
            · have hwq' : w ∉ [c] ++ queue := by
                intro hin
                apply hwq
                rcases List.mem_append.1 hin with h1 | h2
                · exact List.mem_append_left _ h1
                · exact List.mem_append_right _ (List.mem_append_left _ h2)
              exact List.mem_cons_of_mem n (hInv.hclosed w hw2 hwq' m hadjm) }
      obtain ⟨B', k, h1, h2, h3, h4, h5⟩ :=
        ih (queue ++ [n]) ((n, true) :: used) ((n, c) :: prev) A (B ++ [n])
          (fun m hm => hns m (List.mem_cons_of_mem n hm))
          (List.mem_cons_of_mem n hcuk) hInvExt q' u' p' heq
      refine ⟨B', k + 1, h1, ?_, ?_, ?_, ?_⟩
      · intro m hm
        rcases List.mem_cons.1 hm with hm1 | hm'
        · subst hm1
          exact h3 m (List.mem_cons_self m (ukeys used))
        · exact h2 m hm'
      · intro w hw
        exact h3 w (List.mem_cons_of_mem n hw)
      · rw [h4, List.length_append]
        simp
        omega
      · rw [h5, ukeys_cons, List.length_cons]
        omega

theorem bfsAux_nil (G : Dict) (fuel : Nat) (used : List (Word × Bool))
    (prev : List (Word × Word)) : bfsAux G fuel [] used prev = some (used, prev) := by
  cases fuel <;> rfl

theorem bfsAux_cons (G : Dict) (fuel : Nat) (c : Word) (queue : List Word)
    (used : List (Word × Bool)) (prev : List (Word × Word)) :
    bfsAux G (fuel + 1) (c :: queue) used prev =
      match alookup G c with
      | none => none
      | some ns =>
        match visitNeighbors c ns queue used prev with
        | (queue', used', prev') => bfsAux G fuel queue' used' prev' := rfl

theorem bfs_run (G : Dict) (S : Word)
    (hclosure : ∀ e ∈ G, ∀ m ∈ e.2, m ∈ keys G) :
    ∀ (fuel : Nat) (queue : List Word) (used : List (Word × Bool))
      (prev : List (Word × Word)) (d : Nat) (A B : List Word),
      BfsInv G S d A B [] queue used prev →
      queue.length + 2 * ((univw G S).dedup.length - (ukeys used).length) ≤ fuel →
      ∃ u' p', bfsAux G fuel queue used prev = some (u', p') ∧ BfsFinal G S u' p' := by
  intro fuel
  induction fuel with
  | zero =>
    intro queue used prev d A B hInv hfuel
    cases queue with
    | nil =>
      exact ⟨used, prev, bfsAux_nil G 0 used prev, inv_final G S d A B used prev hInv⟩
    | cons c rest =>
      exfalso
      rw [List.length_cons] at hfuel
      omega
  | succ fuel ih =>
    intro queue used prev d A B hInv hfuel
    cases queue with
    | nil =>
      exact ⟨used, prev, bfsAux_nil G _ used prev, inv_final G S d A B used prev hInv⟩
    | cons c rest =>
      obtain ⟨d₂, A₃, B₂, hInv₂⟩ :
          ∃ d₂ A₃ B₂, BfsInv G S d₂ (c :: A₃) B₂ [] (c :: rest) used prev := by
        cases A with
        | nil =>
          have hB : B = c :: rest := by
            have h := hInv.happ
            simpa using h.symm
          subst hB
          have h2 := levelUp G S d (c :: rest) (c :: rest) used prev hInv
          exact ⟨d + 1, rest, [], h2⟩
        | cons a A₃ =>
          have happ := hInv.happ
          rw [List.cons_append] at happ
          injection happ with hca hrest
          subst hca
          exact ⟨d, A₃, B, hInv⟩
      have happ₂ := hInv₂.happ
      rw [List.cons_append] at happ₂
      injection happ₂ with _ hrest
      have hcd : IsDist G S c d₂ := hInv₂.hA c (List.mem_cons_self c A₃)
      have hcuk : c ∈ ukeys used := hInv₂.hq c (List.mem_cons_self c rest)
      have hckeys : c ∈ keys G := hInv₂.hkeys c hcuk
      obtain ⟨ns, hns⟩ := alookup_isSome G c hckeys
      have hnsOf : neighborsOf G c = ns := by
        rw [neighborsOf, hns]
        rfl
      have hadjs : ∀ n ∈ ns, adj G c n := by
        intro n hn
        rw [adj_iff, hnsOf]
        exact hn
      have hInvPop : BfsInv G S d₂ A₃ B₂ [c] rest used prev :=
        { happ := hrest
          hA := fun w hw => hInv₂.hA w (List.mem_cons_of_mem c hw)
          hB := hInv₂.hB
          htrue := hInv₂.htrue
          hpk := hInv₂.hpk
          hS := hInv₂.hS
          hprevS := hInv₂.hprevS
          hq := fun w hw => hInv₂.hq w (List.mem_cons_of_mem c hw)
          hnd := hInv₂.hnd
          huniv := hInv₂.huniv
          hkeys := hInv₂.hkeys
          hreach := hInv₂.hreach
          hprev := hInv₂.hprev
          hcompl := hInv₂.hcompl
          hclosed := hInv₂.hclosed }
      obtain ⟨q', u', p', hVN⟩ :
          ∃ q' u' p', visitNeighbors c ns rest used prev = (q', u', p') :=
        ⟨(visitNeighbors c ns rest used prev).1,
         (visitNeighbors c ns rest used prev).2.1,
         (visitNeighbors c ns rest used prev).2.2, rfl⟩
      obtain ⟨B', k, hInvNew, hnsuk, hmono, hlenq, hlenu⟩ :=
        visit_step G S hclosure c d₂ hcd ns rest used prev A₃ B₂ hadjs hcuk
          hInvPop q' u' p' hVN
      have hInvNext : BfsInv G S d₂ A₃ B' [] q' u' p' :=
        { happ := hInvNew.happ
          hA := hInvNew.hA
          hB := hInvNew.hB
          htrue := hInvNew.htrue
          hpk := hInvNew.hpk
          hS := hInvNew.hS
          hprevS := hInvNew.hprevS
          hq := hInvNew.hq
          hnd := hInvNew.hnd
          huniv := hInvNew.huniv
          hkeys := hInvNew.hkeys
          hreach := hInvNew.hreach
          hprev := hInvNew.hprev
          hcompl := hInvNew.hcompl
          hclosed := by
            intro w hw hwq m hadjm
            by_cases hwc : w = c
            · subst hwc
              rw [adj_iff, hnsOf] at hadjm
              exact hnsuk m hadjm
            · refine hInvNew.hclosed w hw ?_ m hadjm
              intro hin
              rcases List.mem_append.1 hin with h1 | h2
              · exact hwc (List.mem_singleton.1 h1)
              · exact hwq (by simpa using h2) }
      have hukT : (ukeys u').length ≤ (univw G S).dedup.length :=
        nodup_subset_dedup_length _ _ hInvNew.hnd hInvNew.huniv
      have hfuel' :
          q'.length + 2 * ((univw G S).dedup.length - (ukeys u').length) ≤ fuel := by
        rw [List.length_cons] at hfuel
        omega
      obtain ⟨u'', p'', hrun, hfin⟩ := ih q' u' p' d₂ A₃ B' hInvNext hfuel'
      refine ⟨u'', p'', ?_, hfin⟩
      have hred : bfsAux G (fuel + 1) (c :: rest) used prev = bfsAux G fuel q' u' p' := by
        rw [bfsAux_cons, hns]
        show (match visitNeighbors c ns rest used prev with
              | (queue', used', prev') => bfsAux G fuel queue' used' prev') =
            bfsAux G fuel q' u' p'
        rw [hVN]
      rw [hred]
      exact hrun

theorem inv_init (G : Dict) (S : Word) (hSk : S ∈ keys G) :
    BfsInv G S 0 [S] [] [] [S] [(S, true)] [(S, [])] :=
  { happ := by simp
    hA := by
      intro w hw
      simp only [List.mem_singleton] at hw
      rw [hw]
      exact isDist_start G S
    hB := by
      intro w hw
      simp at hw
    htrue := by
      intro pr hpr
      simp only [List.mem_singleton] at hpr
      subst hpr
      rfl
    hpk := rfl
    hS := List.mem_singleton_self S
    hprevS := by simp [alookup]
    hq := fun w hw => hw
    hnd := List.nodup_singleton S
    huniv := by
      intro w hw
      simp only [ukeys, List.map_cons, List.map_nil, List.mem_singleton] at hw
      subst hw
      exact List.mem_cons_self w _
    hkeys := by
      intro w hw
      simp only [ukeys, List.map_cons, List.map_nil, List.mem_singleton] at hw
      subst hw
      exact hSk
    hreach := by
      intro w hw
      simp only [ukeys, List.map_cons, List.map_nil, List.mem_singleton] at hw
      subst hw
      exact ⟨0, (isDist_start G w).1⟩
    hprev := by
      intro w hw hwS
      exfalso
      apply hwS
      simpa [ukeys] using hw
    hcompl := by
      intro w n hdist hn
      have hn0 : n = 0 := Nat.le_zero.1 hn
      subst hn0
      have hws := isDist_zero_eq G S w hdist
      subst hws
      exact List.mem_singleton_self w
    hclosed := by
      intro w hw hwq
      exfalso
      apply hwq
      simpa [ukeys] using hw }

theorem ball_subset_final (G : Dict) (S : Word) (used : List (Word × Bool))
    (prev : List (Word × Word)) (F : BfsFinal G S used prev) :
    ∀ n, ∀ w ∈ ball G S n, w ∈ ukeys used := by
  intro n
  induction n with
  | zero =>
    intro w hw
    rw [ball] at hw
    simp only [List.mem_singleton] at hw
    subst hw
    exact F.fS
  | succ n ihn =>
    intro w hw
    rw [ball] at hw
    rcases List.mem_append.1 hw with h1 | h2
    · exact ihn w h1
    · rw [List.mem_flatMap] at h2
      obtain ⟨v, hv, hadj⟩ := h2
      exact F.fclosed v (ihn v hv) w hadj

theorem isDist_chain_card (G : Dict) (S : Word) (used : List (Word × Bool))
    (prev : List (Word × Word)) (F : BfsFinal G S used prev) :
    ∀ k w, w ∈ ukeys used → IsDist G S w k →
      ∃ L : List Word, L.Nodup ∧ (∀ x ∈ L, x ∈ ukeys used) ∧
        L.length = k + 1 ∧ ∀ x ∈ L, ∃ j, j ≤ k ∧ IsDist G S x j := by
  intro k
  induction k with
  | zero =>
    intro w hw hd
    refine ⟨[w], List.nodup_singleton w, ?_, by simp, ?_⟩
    · intro x hx
      simp only [List.mem_singleton] at hx
      subst hx
      exact hw
    · intro x hx
      simp only [List.mem_singleton] at hx
      subst hx
      exact ⟨0, le_refl 0, hd⟩
  | succ k ihk =>
    intro w hw hd
    have hwS : w ≠ S := by
      intro hh
      rw [hh] at hd
      have := isDist_unique G S S 0 (k + 1) (isDist_start G S) hd
      omega
    obtain ⟨v, j, halook, hvuk, hadj, hdv, hdw⟩ := F.fprev w hw hwS
    have hkj : k = j := by
      have := isDist_unique G S w (j + 1) (k + 1) hdw hd
      omega
    subst hkj
    obtain ⟨L, hLnd, hLuk, hLlen, hLj⟩ := ihk v hvuk hdv
    refine ⟨w :: L, ?_, ?_, by simp [hLlen], ?_⟩
    · refine List.nodup_cons.2 ⟨?_, hLnd⟩
      intro hwL
      obtain ⟨j', hj', hdx⟩ := hLj w hwL
      have := isDist_unique G S w j' (k + 1) hdx hd
      omega
    · intro x hx
      rcases List.mem_cons.1 hx with h1 | h2
      · subst h1
        exact hw
      · exact hLuk x h2
    · intro x hx
      rcases List.mem_cons.1 hx with h1 | h2
      · subst h1
        exact ⟨k + 1, le_refl _, hd⟩
      · obtain ⟨j', hj', hdx⟩ := hLj x h2
        exact ⟨j', by omega, hdx⟩

theorem isDist_lt_card (G : Dict) (S : Word) (used : List (Word × Bool))
    (prev : List (Word × Word)) (F : BfsFinal G S used prev) (k : Nat) (w : Word)
    (hw : w ∈ ukeys used) (hd : IsDist G S w k) :
    k + 1 ≤ (ukeys used).length := by
  obtain ⟨L, hnd, hsub, hlen, _⟩ := isDist_chain_card G S used prev F k w hw hd
  have hsp := hnd.subperm (fun x hx => hsub x hx)
  have := List.Subperm.length_le hsp
  omega

theorem reconstruct_ok (G : Dict) (S : Word) (used : List (Word × Bool))
    (prev : List (Word × Word)) (F : BfsFinal G S used prev)
    (hnonempty : ∀ w ∈ keys G, w ≠ []) :
    ∀ k w, w ∈ ukeys used → IsDist G S w k → ∀ fuel, k + 2 ≤ fuel →
      ∃ L, reconstructAux fuel prev w = some L ∧ L.length = k + 1 ∧
        L.head? = some w ∧ L.getLast? = some S ∧
        List.Chain' (fun a b => adj G b a) L := by
  intro k
  induction k with
  | zero =>
    intro w hw hd fuel hfuel
    have hwS : w = S := isDist_zero_eq G S w hd
    subst hwS
    obtain ⟨f1, rfl⟩ : ∃ f1, fuel = f1 + 1 := ⟨fuel - 1, by omega⟩
    obtain ⟨f2, rfl⟩ : ∃ f2, f1 = f2 + 1 := ⟨f1 - 1, by omega⟩
    have hSne : w ≠ [] := hnonempty w (F.fkeys w hw)
    have hinner : reconstructAux (f2 + 1) prev [] = some [] := by
      rw [reconstructAux, if_pos rfl]
    refine ⟨[w], ?_, by simp, by simp, by simp, List.chain'_singleton w⟩
    rw [reconstructAux, if_neg hSne, F.fprevS]
    show (reconstructAux (f2 + 1) prev []).map (fun r => w :: r) = some [w]
    rw [hinner]
    rfl
  | succ k ihk =>
    intro w hw hd fuel hfuel
    have hwS : w ≠ S := by
      intro hh
      rw [hh] at hd
      have := isDist_unique G S S 0 (k + 1) (isDist_start G S) hd
      omega
    obtain ⟨v, j, halook, hvuk, hadj, hdv, hdw⟩ := F.fprev w hw hwS
    have hkj : k = j := by
      have := isDist_unique G S w (j + 1) (k + 1) hdw hd
      omega
    subst hkj
    obtain ⟨f1, rfl⟩ : ∃ f1, fuel = f1 + 1 := ⟨fuel - 1, by omega⟩
    have hwne : w ≠ [] := hnonempty w (F.fkeys w hw)
    obtain ⟨L, hLeq, hLlen, hLhead, hLlast, hLchain⟩ :=
      ihk v hvuk hdv f1 (by omega)
    refine ⟨w :: L, ?_, by simp [hLlen], by simp, ?_, ?_⟩
    · rw [reconstructAux, if_neg hwne, halook]
      show (reconstructAux f1 prev v).map (fun r => w :: r) = some (w :: L)
      rw [hLeq]
      rfl
    · cases L with
      | nil => simp at hLlen
      | cons x L' =>
        rw [List.getLast?_cons_cons]
        exact hLlast
    · rw [List.chain'_cons']
      refine ⟨?_, hLchain⟩
      intro y hy
      rw [hLhead] at hy
      simp only [Option.mem_some_iff] at hy
      subst hy
      exact hadj

/-! ## Claims C1, C2, C3: `find_path` -/

/-- C1 (amended): on any dictionary whose neighbor lists mention only keys
and whose keys are non-empty words, for any start and end key such that the
end is reachable, `find_path` prints a path from start to end whose hop
count is the minimum number of single-letter-substitution edges among all
paths in the dictionary graph. -/
theorem findPath_shortest (G : Dict) (S E : Word)
    (hclosure : ∀ e ∈ G, ∀ m ∈ e.2, m ∈ keys G)
    (hnonempty : ∀ w ∈ keys G, w ≠ [])
    (hS : S ∈ keys G) (hE : E ∈ keys G)
    (hconn : ∃ q, ValidPath G S E q) :
    ∃ p, findPath G S E = FindResult.path p ∧ ValidPath G S E p ∧
      ∀ q, ValidPath G S E q → p.length ≤ q.length := by
  obtain ⟨nsS, hlookS⟩ := alookup_isSome G S hS
  obtain ⟨nsE, hlookE⟩ := alookup_isSome G E hE
  have hInv0 := inv_init G S hS
  have hT : 1 ≤ (univw G S).dedup.length := by
    have hSu : S ∈ (univw G S).dedup := List.mem_dedup.2 (List.mem_cons_self _ _)
    have hne : (univw G S).dedup ≠ [] := List.ne_nil_of_mem hSu
    have := List.length_pos.2 hne
    omega
  have hfuel0 : [S].length +
      2 * ((univw G S).dedup.length - (ukeys [(S, true)]).length) ≤ bfsFuel G S := by
    rw [bfsFuel_eq]
    simp only [List.length_singleton, ukeys, List.map_cons, List.map_nil]
    omega
  obtain ⟨u', p', hrun, F⟩ :=
    bfs_run G S hclosure (bfsFuel G S) [S] [(S, true)] [(S, [])] 0 [S] [] hInv0 hfuel0
  obtain ⟨q0, hq0⟩ := hconn
  have hreachE : ∃ n, E ∈ ball G S n := validPath_reach G S E q0 hq0
  obtain ⟨nE, hnE⟩ := hreachE
  have hEuk : E ∈ ukeys u' := ball_subset_final G S u' p' F nE E hnE
  obtain ⟨bE, hbE⟩ := alookup_isSome u' E hEuk
  have hbEt : bE = true := F.ftrue (E, bE) (alookup_mem u' E bE hbE)
  subst hbEt
  obtain ⟨kE, hkE⟩ := reach_isDist G S E ⟨nE, hnE⟩
  have hfuelr : kE + 2 ≤ p'.length + 1 := by
    have h1 : kE + 1 ≤ (ukeys u').length := isDist_lt_card G S u' p' F kE E hEuk hkE
    have h2 : p'.length = (ukeys u').length := by
      have hfpk := F.fpk
      calc p'.length = (p'.map Prod.fst).length := (List.length_map _ _).symm
        _ = (ukeys u').length := by rw [hfpk]
    omega
  obtain ⟨L, hLeq, hLlen, hLhead, hLlast, hLchain⟩ :=
    reconstruct_ok G S u' p' F hnonempty kE E hEuk hkE (p'.length + 1) hfuelr
  have hLne : L ≠ [] := by
    intro hnil
    rw [hnil] at hLlen
    simp at hLlen
  refine ⟨L.reverse, ?_, ⟨?_, ?_, ?_⟩, ?_⟩
  · rw [findPath, hlookS, hlookE]
    rw [if_neg (by simp), if_neg (by simp)]
    rw [hrun]
    show (match alookup u' E with
          | none => FindResult.errored
          | some b =>
            if b = false then FindResult.noPath
            else
              match reconstructAux (p'.length + 1) p' E with
              | none => FindResult.errored
              | some rev => FindResult.path rev.reverse) = FindResult.path L.reverse
    rw [hbE]
    show (if true = false then FindResult.noPath
          else
            match reconstructAux (p'.length + 1) p' E with
            | none => FindResult.errored
            | some rev => FindResult.path rev.reverse) = FindResult.path L.reverse
    rw [if_neg (by simp), hLeq]
  · rw [List.head?_reverse]
    exact hLlast
  · rw [List.getLast?_reverse]
    exact hLhead
  · rw [List.chain'_reverse]
    exact hLchain
  · intro q hq
    have hqball := validPath_ball G S E q hq
    have hqlen : kE ≤ q.length - 1 := hkE.2 _ hqball
    have hqne : q ≠ [] := validPath_ne_nil G S E q hq
    have hq1 : 1 ≤ q.length := List.length_pos.2 hqne
    rw [List.length_reverse, hLlen]
    omega

/-- C1 witness: the shortest-path theorem applied to the spec's concrete
scenario `{"cat","cot","cog","dog","dot"}` with start `cat`, end `dog`. -/
theorem findPath_shortest_witness :
    ∃ p, findPath
        [([99, 97, 116], [[99, 111, 116]]),
         ([99, 111, 116], [[99, 97, 116], [99, 111, 103], [100, 111, 116]]),
         ([99, 111, 103], [[99, 111, 116], [100, 111, 103]]),
         ([100, 111, 103], [[99, 111, 103], [100, 111, 116]]),
         ([100, 111, 116], [[99, 111, 116], [100, 111, 103]])]
        [99, 97, 116] [100, 111, 103] = FindResult.path p ∧
      ValidPath
        [([99, 97, 116], [[99, 111, 116]]),
         ([99, 111, 116], [[99, 97, 116], [99, 111, 103], [100, 111, 116]]),
         ([99, 111, 103], [[99, 111, 116], [100, 111, 103]]),
         ([100, 111, 103], [[99, 111, 103], [100, 111, 116]]),
         ([100, 111, 116], [[99, 111, 116], [100, 111, 103]])]
        [99, 97, 116] [100, 111, 103] p ∧
      ∀ q, ValidPath
        [([99, 97, 116], [[99, 111, 116]]),
         ([99, 111, 116], [[99, 97, 116], [99, 111, 103], [100, 111, 116]]),
         ([99, 111, 103], [[99, 111, 116], [100, 111, 103]]),
         ([100, 111, 103], [[99, 111, 103], [100, 111, 116]]),
         ([100, 111, 116], [[99, 111, 116], [100, 111, 103]])]
        [99, 97, 116] [100, 111, 103] q → p.length ≤ q.length :=
  findPath_shortest _ [99, 97, 116] [100, 111, 103] (by decide) (by decide)
    (by decide) (by decide)
    ⟨[[99, 97, 116], [99, 111, 116], [99, 111, 103], [100, 111, 103]], by
      refine ⟨rfl, rfl, ?_⟩
      simp only [List.chain'_cons, List.chain'_singleton, and_true]
      refine ⟨?_, ?_, ?_⟩ <;> decide⟩

/-- C1 counterexample: the dictionary `{"" ↦ {}}` (producible by the loader
from a file holding one empty line) with start = end = the empty word is a
dictionary with both endpoints present and the end trivially reachable, yet
`find_path` prints the empty sequence — not the required one-word path
containing start and end — because the reconstruction loop's empty-slice
sentinel collides with the empty word. -/
theorem findPath_empty_word_cex :
    findPath [([], [])] [] [] = FindResult.path [] ∧
      ¬ValidPath [([], [])] [] [] [] ∧
      (∃ q, ValidPath [([], [])] [] [] q) := by
  refine ⟨by decide, ?_, ⟨[[]], ?_⟩⟩
  · intro h
    obtain ⟨hh, _, _⟩ := h
    simp at hh
  · exact ⟨rfl, rfl, List.chain'_singleton []⟩

/-- C2 (code bug): with the dictionary `{"a" ↦ {}, "b" ↦ {}}`, start `"a"`
and end `"b"`, the BFS exhausts its frontier without visiting the end word,
and instead of printing `no path found` the program aborts: `used[end_word]`
(main.rs:204) is a panicking `HashMap` index on a key that was never
inserted.  The `no path found` branch is unreachable, since `used` only ever
stores `true`. -/
theorem findPath_unreachable_panics :
    findPath [([97], []), ([98], [])] [97] [98] = FindResult.errored ∧
      (∀ used : List (Word × Bool), (∀ pr ∈ used, pr.2 = true) →
        ∀ w b, alookup used w = some b → b ≠ false) := by
  refine ⟨by decide, ?_⟩
  intro used htrue w b hl hb
  have := htrue (w, b) (alookup_mem used w b hl)
  rw [hb] at this
  simp at this

/-- C3 (code bug): with the dictionary `{"a" ↦ {}}`, start `"a"` (present)
and end `"b"` (absent), `find_path` stops before searching and returns
normally, but the message names the start word `"a"` — which is in the
dictionary — instead of the absent word `"b"`, because main.rs:172 prints
`start_word` on both iterations of the membership-check loop. -/
theorem findPath_absent_end_names_start :
    findPath [([97], [])] [97] [98] = FindResult.wordNotFound [97] ∧
      [97] ≠ [98] ∧ ([97] : Word) ∈ keys [([97], [])] := by decide
